import Mathlib

/-!
Shallow embedding of `src/blocks/extensions.py`: the training-extension
callback mechanism (`TrainingExtension`, `SimpleExtension`, `FinishAfter`,
`Printing`).

Modelling choices:
* The main loop's log (`self.main_loop.log`) is a record with a `status`
  (`epochs_done`, `iterations_done`) and a `current_row` holding the
  `training_finish_requested` flag — exactly the fields this module touches.
* Python counters are modelled as `Int` so that the truthiness test
  `if after_n_epochs:` (false for `None` and for `0`) can be rendered
  faithfully.
* `SimpleExtension.dispatch` is state-passing: the abstract `do` method is a
  function `String → List α → Log → Log` (it may mutate the log, as
  `FinishAfter.do` does), and dispatch additionally returns the trace of
  `do` invocations `(which_callback, args)` in order.
* The base-class `dispatch` uses `getattr`; an object's methods are modelled
  as a partial map `String → Option (List α → β)`, `none` standing for the
  `AttributeError` raised by `getattr` on a missing attribute.
-/

set_option autoImplicit false

namespace Blocks

/-- `log.status` as read by this module: `epochs_done` and `iterations_done`. -/
structure TrainingStatus where
  epochs_done : Int
  iterations_done : Int
  deriving Repr, DecidableEq

/-- `log.current_row` as touched by this module: the flag set by `FinishAfter.do`. -/
structure CurrentRow where
  training_finish_requested : Bool
  deriving Repr, DecidableEq

/-- The main loop's log object (`self.main_loop.log`). -/
structure Log where
  status : TrainingStatus
  current_row : CurrentRow
  deriving Repr, DecidableEq

/-- One entry of `SimpleExtension._conditions`: the tuple
`(callback_name, predicate, arguments)` appended by `add_condition`. -/
structure Condition (α : Type) where
  callback_name : String
  predicate : Log → Bool
  arguments : List α

/-- The `SimpleExtension` object state: its `_conditions` list. -/
structure SimpleExtension (α : Type) where
  conditions : List (Condition α)

/-- `TrainingExtension.dispatch(self, callback_name, *args)`:
`getattr(self, callback_name)(*args)`.  `methods` is the object's attribute
map; `none` models the `AttributeError` raised when the attribute is absent. -/
def TrainingExtension.dispatch {α β : Type} (methods : String → Option (List α → β))
    (callback_name : String) (args : List α) : Option β :=
  match methods callback_name with
  | none => none
  | some m => some (m args)

/-- The callback methods defined by the `TrainingExtension` base class:
`before_training`, `before_epoch`, `before_batch`, `after_batch`,
`after_epoch`, `after_training`, `on_interrupt`, each a no-op (`pass`). -/
def base_callback_table (α : Type) : String → Option (List α → Unit) :=
  fun name =>
    if name == "before_training" || name == "before_epoch"
        || name == "before_batch" || name == "after_batch"
        || name == "after_epoch" || name == "after_training"
        || name == "on_interrupt"
    then some (fun _ => ()) else none

/-- `SimpleExtension.add_condition(self, callback_name, predicate=None,
arguments=None)`: `if not arguments: arguments = []` (falsy for `None` and
for an empty sequence), `if not predicate: predicate = lambda log: True`
(a function object is always truthy, `None` is falsy), then
`self._conditions.append((callback_name, predicate, arguments))`. -/
def SimpleExtension.add_condition {α : Type} (ext : SimpleExtension α)
    (callback_name : String) (predicate : Option (Log → Bool))
    (arguments : Option (List α)) : SimpleExtension α :=
  let args : List α :=
    match arguments with
    | none => []
    | some l => if l.isEmpty then [] else l
  let pred : Log → Bool :=
    match predicate with
    | none => fun _ => true
    | some p => p
  ⟨ext.conditions ++ [⟨callback_name, pred, args⟩]⟩

/-- `SimpleExtension.__init__`: starts from `self._conditions = []`, then
registers conditions for each truthy constructor flag, in source order.
`after_n_epochs` / `after_n_batches` are guarded by Python truthiness
(`if after_n_epochs:`): skipped for `None` and for `0`. -/
def SimpleExtension.init (α : Type) (before_first_epoch after_every_epoch
    after_every_batch after_training : Bool)
    (after_n_epochs after_n_batches : Option Int) : SimpleExtension α :=
  let ext : SimpleExtension α := ⟨[]⟩
  let ext := if before_first_epoch then
      ext.add_condition "before_epoch"
        (some fun log => log.status.epochs_done == 0) none
    else ext
  let ext := if after_every_epoch then
      ext.add_condition "after_epoch" none none
    else ext
  let ext := if after_every_batch then
      ext.add_condition "after_batch" none none
    else ext
  let ext := if after_training then
      ext.add_condition "after_training" none none
    else ext
  let ext :=
    match after_n_epochs with
    | none => ext
    | some n =>
      if n == 0 then ext
      else ext.add_condition "after_epoch"
        (some fun log => log.status.epochs_done == n) none
  let ext :=
    match after_n_batches with
    | none => ext
    | some n =>
      if n == 0 then ext
      else ext.add_condition "after_batch"
        (some fun log => log.status.iterations_done == n) none
  ext

/-- The loop body of `SimpleExtension.dispatch`: iterate the conditions in
order; when `callback_name == callback_invoked and predicate(self.main_loop.log)`
holds, call `self.do(callback_invoked, *(from_main_loop + tuple(arguments)))`.
The log is threaded through the `do` calls (`do` may mutate it); the result is
the final log together with the trace of `do` invocations in order. -/
def dispatchGo {α : Type} (do_method : String → List α → Log → Log)
    (callback_invoked : String) (from_main_loop : List α) :
    List (Condition α) → Log → Log × List (String × List α)
  | [], log => (log, [])
  | c :: rest, log =>
    if c.callback_name == callback_invoked && c.predicate log then
      let r := dispatchGo do_method callback_invoked from_main_loop rest
        (do_method callback_invoked (from_main_loop ++ c.arguments) log)
      (r.1, (callback_invoked, from_main_loop ++ c.arguments) :: r.2)
    else
      dispatchGo do_method callback_invoked from_main_loop rest log

/-- `SimpleExtension.dispatch(self, callback_invoked, *from_main_loop)`.
The method only reads `self._conditions`, so the extension is returned
unchanged alongside the final log and the trace of `do` invocations. -/
def SimpleExtension.dispatch {α : Type} (ext : SimpleExtension α)
    (do_method : String → List α → Log → Log) (callback_invoked : String)
    (from_main_loop : List α) (log : Log) :
    SimpleExtension α × Log × List (String × List α) :=
  (ext, dispatchGo do_method callback_invoked from_main_loop ext.conditions log)

/-- A condition whose predicate is an effectful Python callable: calling it
consumes and produces an ambient state `σ` besides returning a `Bool`.  Used
to observe, in the embedding, exactly which predicates `dispatch` calls, and
with which argument. -/
structure CondE (σ α : Type) where
  callback_name : String
  predicate : Log → σ → Bool × σ
  arguments : List α

/-- The loop body of `SimpleExtension.dispatch` over effectful predicates.
Python's `and` is short-circuiting, so `predicate(self.main_loop.log)` is
called only when `callback_name == callback_invoked` already holds; the
state `σ` records those calls. -/
def dispatchEGo {σ α : Type} (do_method : String → List α → Log → Log)
    (callback_invoked : String) (from_main_loop : List α) :
    List (CondE σ α) → Log → σ → Log × σ × List (String × List α)
  | [], log, s => (log, s, [])
  | c :: rest, log, s =>
    if c.callback_name == callback_invoked then
      let p := c.predicate log s
      if p.1 then
        let r := dispatchEGo do_method callback_invoked from_main_loop rest
          (do_method callback_invoked (from_main_loop ++ c.arguments) log) p.2
        (r.1, r.2.1, (callback_invoked, from_main_loop ++ c.arguments) :: r.2.2)
      else
        dispatchEGo do_method callback_invoked from_main_loop rest log p.2
    else
      dispatchEGo do_method callback_invoked from_main_loop rest log s

/-- Wraps a pure condition (as stored in `_conditions`) so that every call of
its predicate is recorded in the state as the pair
(index of the condition, log value it was called on). -/
def instrument {α : Type} (i : Nat) (c : Condition α) :
    CondE (List (Nat × Log)) α :=
  ⟨c.callback_name, fun log s => (c.predicate log, s ++ [(i, log)]), c.arguments⟩

/-- `FinishAfter.do(self, which_callback, *args)`:
`self.main_loop.log.current_row.training_finish_requested = True`, and
nothing else. -/
def finish_after_do {α : Type} (_which_callback : String) (_args : List α)
    (log : Log) : Log :=
  { log with current_row := { training_finish_requested := true } }

/-- The keyword arguments accepted by `SimpleExtension.__init__` as a `kwargs`
dictionary: `none` in the outer `Option` means the key is absent from the
dictionary (so the Python default applies). -/
structure Kwargs where
  before_first_epoch : Option Bool
  after_every_epoch : Option Bool
  after_every_batch : Option Bool
  after_training : Option Bool
  after_n_epochs : Option (Option Int)
  after_n_batches : Option (Option Int)

/-- `set_if_absent(name)` from `Printing.__init__`:
`if name not in kwargs: kwargs[name] = True`. -/
def set_if_absent (v : Option Bool) : Option Bool :=
  match v with
  | none => some true
  | some b => some b

/-- Calling `SimpleExtension.__init__(**kwargs)`: absent keys take the
declared Python defaults (`False` for the flags, `None` for the counters). -/
def SimpleExtension.init_kwargs (α : Type) (k : Kwargs) : SimpleExtension α :=
  SimpleExtension.init α (k.before_first_epoch.getD false)
    (k.after_every_epoch.getD false) (k.after_every_batch.getD false)
    (k.after_training.getD false) (k.after_n_epochs.getD none)
    (k.after_n_batches.getD none)

/-- `Printing.__init__(self, **kwargs)`: applies `set_if_absent` to
`before_first_epoch`, `after_training` and `after_every_epoch`, then calls
`super().__init__(**kwargs)`. -/
def Printing.init_kwargs (k : Kwargs) : Kwargs :=
  { k with
    before_first_epoch := set_if_absent k.before_first_epoch
    after_training := set_if_absent k.after_training
    after_every_epoch := set_if_absent k.after_every_epoch }

/-- Constructing a `Printing` extension: its condition list is the one built
by `SimpleExtension.__init__` on the adjusted kwargs.  (`FinishAfter.__init__`
forwards its kwargs unchanged, so a `FinishAfter` extension's conditions are
`SimpleExtension.init_kwargs` directly.) -/
def Printing.init (α : Type) (k : Kwargs) : SimpleExtension α :=
  SimpleExtension.init_kwargs α (Printing.init_kwargs k)

/-- A `kwargs` dictionary with no keys. -/
def Kwargs.empty : Kwargs :=
  ⟨none, none, none, none, none, none⟩

/-! ## Helper lemmas -/

/-- The trace of the dispatch loop is the name-and-predicate filter of the
condition list, mapped to the concatenated `do` arguments, provided the `do`
method does not disturb the values of the registered predicates. -/
theorem dispatchGo_trace {α : Type} (dm : String → List α → Log → Log)
    (inv : String) (args : List α) (conds : List (Condition α)) :
    ∀ log : Log,
      (∀ c ∈ conds, ∀ n a l, c.predicate (dm n a l) = c.predicate l) →
      (dispatchGo dm inv args conds log).2 =
        (conds.filter fun c => c.callback_name == inv && c.predicate log).map
          (fun c => (inv, args ++ c.arguments)) := by
  induction conds with
  | nil => intro log _; rfl
  | cons c rest ih =>
    intro log h
    have hrest : ∀ c' ∈ rest, ∀ n a l, c'.predicate (dm n a l) = c'.predicate l :=
      fun c' hm => h c' (List.mem_cons_of_mem c hm)
    by_cases hb : (c.callback_name == inv && c.predicate log) = true
    · have hrec := ih (dm inv (args ++ c.arguments) log) hrest
      have hfix : (rest.filter fun c' => c'.callback_name == inv
            && c'.predicate (dm inv (args ++ c.arguments) log))
          = rest.filter fun c' => c'.callback_name == inv && c'.predicate log := by
        apply List.filter_congr
        intro c' hm
        rw [hrest c' hm]
      simp only [dispatchGo, hb, if_true, List.filter_cons, hb, List.map_cons]
      simp only [hrec, hfix]
    · simp only [dispatchGo, hb, if_false, List.filter_cons, hb, Bool.false_eq_true]
      exact ih log hrest

/-- When no registered condition bears the invoked name, the dispatch loop
returns the log unchanged and an empty `do` trace. -/
theorem dispatchGo_unmatched {α : Type} (dm : String → List α → Log → Log)
    (inv : String) (args : List α) (conds : List (Condition α)) :
    ∀ log : Log, (∀ c ∈ conds, c.callback_name ≠ inv) →
      dispatchGo dm inv args conds log = (log, []) := by
  induction conds with
  | nil => intro log _; rfl
  | cons c rest ih =>
    intro log h
    have hc : (c.callback_name == inv) = false := by
      simp [h c (List.mem_cons_self c rest)]
    simp only [dispatchGo, hc, Bool.false_and, if_false, Bool.false_eq_true]
    exact ih log fun c' hm => h c' (List.mem_cons_of_mem c hm)

/-- Dispatching an extension holding a single condition registered for the
invoked callback fires `do` once or not at all, as the predicate decides. -/
theorem dispatch_single {α : Type} (name : String) (pred : Log → Bool)
    (extra : List α) (dm : String → List α → Log → Log) (args : List α)
    (log : Log) :
    ((SimpleExtension.mk [⟨name, pred, extra⟩]).dispatch dm name args log).2.2
      = if pred log then [(name, args ++ extra)] else [] := by
  cases hp : pred log <;>
    simp [SimpleExtension.dispatch, dispatchGo, hp]

/-- Run of the instrumented dispatch loop: predicates record their calls in
the state.  Starting from the index base `i` and an already-accumulated call
list `s`, the final state extends `s` with one entry per name-matching
condition, in order, holding the condition's index and the log it was called
on — provided `do` leaves the log unchanged. -/
theorem dispatchEGo_instrumented {α : Type} (dm : String → List α → Log → Log)
    (inv : String) (args : List α) (h : ∀ n a l, dm n a l = l)
    (conds : List (Condition α)) :
    ∀ (i : Nat) (log : Log) (s : List (Nat × Log)),
      (dispatchEGo dm inv args ((conds.enumFrom i).map fun p =>
          instrument p.1 p.2) log s).2.1
        = s ++ ((conds.enumFrom i).filter fun p =>
            p.2.callback_name == inv).map (fun p => (p.1, log)) := by
  induction conds with
  | nil => intro i log s; simp [List.enumFrom, dispatchEGo]
  | cons c rest ih =>
    intro i log s
    simp only [instrument] at ih ⊢
    by_cases hb : (c.callback_name == inv) = true
    · cases hp : c.predicate log <;>
        simp [List.enumFrom, dispatchEGo, hb, hp, h, ih]
    · simp [List.enumFrom, dispatchEGo, hb, ih]

/-- `set_if_absent` written with `Option.getD`. -/
theorem set_if_absent_eq (v : Option Bool) :
    set_if_absent v = some (v.getD true) := by
  cases v <;> rfl

/-! ## Concrete fixtures used by the witnesses -/

/-- An extension with two conditions on `after_epoch` (one carrying an extra
argument and an always-true predicate, one with predicate
`epochs_done == 2` and extra argument `9`) and one on `after_batch`. -/
def ext1 : SimpleExtension Nat :=
  ⟨[⟨"after_epoch", fun _ => true, [7]⟩,
    ⟨"after_batch", fun _ => true, []⟩,
    ⟨"after_epoch", fun l => l.status.epochs_done == 2, [9]⟩]⟩

/-- A log with two epochs done. -/
def log1 : Log := ⟨⟨2, 0⟩, ⟨false⟩⟩

/-- The extension built by `SimpleExtension(before_first_epoch=True,
after_every_epoch=True)`. -/
def ext4 : SimpleExtension Nat :=
  SimpleExtension.init Nat true true false false none none

/-- A fresh log. -/
def log4 : Log := ⟨⟨0, 0⟩, ⟨false⟩⟩

/-- A condition list mixing `after_epoch` and `before_epoch` conditions. -/
def conds10 : List (Condition Nat) :=
  [⟨"after_epoch", fun _ => true, []⟩,
   ⟨"before_epoch", fun l => l.status.epochs_done == 0, [4]⟩,
   ⟨"after_epoch", fun l => l.status.epochs_done == 3, []⟩]

/-- A log with five epochs done. -/
def log10 : Log := ⟨⟨5, 1⟩, ⟨false⟩⟩

/-! ## Claims -/

/-- C1: for every list of registered conditions, every invoked callback name
and every tuple of main-loop arguments, `SimpleExtension.dispatch` invokes
`do` exactly once per condition whose stored callback name equals the invoked
name and whose predicate returns true on the main loop's log, in registration
order, each time passing the invoked callback name and the main-loop
arguments concatenated (in that order) with that condition's extra arguments;
non-matching conditions cause no `do` invocation.  The trace of `do`
invocations is exactly the filter of the condition list, mapped to the
concatenated argument lists.  The hypothesis pins down the ambient `do`
method: it must not disturb the registered predicates' values (true of every
`do` in the module, including the log-mutating `FinishAfter.do`). -/
theorem dispatch_fires_matching_conditions {α : Type} (ext : SimpleExtension α)
    (dm : String → List α → Log → Log) (inv : String) (args : List α)
    (log : Log)
    (h : ∀ c ∈ ext.conditions, ∀ n a l, c.predicate (dm n a l) = c.predicate l) :
    (ext.dispatch dm inv args log).2.2 =
      (ext.conditions.filter fun c =>
          c.callback_name == inv && c.predicate log).map
        (fun c => (inv, args ++ c.arguments)) :=
  dispatchGo_trace dm inv args ext.conditions log h

/-- Witness for C1: dispatching `after_epoch` on `ext1` with main-loop
argument `1` and a log with `epochs_done = 2` fires `do` twice, in
registration order, with the extra arguments appended. -/
theorem dispatch_fires_matching_conditions_witness :
    (ext1.dispatch finish_after_do "after_epoch" [1] log1).2.2
      = [("after_epoch", [1, 7]), ("after_epoch", [1, 9])] := by
  have h : ∀ c ∈ ext1.conditions, ∀ (n : String) (a : List Nat) (l : Log),
      c.predicate (finish_after_do n a l) = c.predicate l := by
    intro c hc
    simp only [ext1, List.mem_cons, List.not_mem_nil, or_false] at hc
    rcases hc with rfl | rfl | rfl <;> intro n a l <;> rfl
  exact (dispatch_fires_matching_conditions ext1 finish_after_do "after_epoch"
    [1] log1 h).trans (by decide)

/-- C3: `TrainingExtension.dispatch(callback_name, *args)` invokes the method
of that name on the extension, passing the arguments unchanged; when the
extension has no attribute of that name, the `getattr` lookup fails (modelled
by `none`) instead of returning normally. -/
theorem training_extension_dispatch_invokes_named_method {α β : Type}
    (methods : String → Option (List α → β)) (name : String) (args : List α) :
    (∀ m, methods name = some m →
        TrainingExtension.dispatch methods name args = some (m args))
    ∧ (methods name = none →
        TrainingExtension.dispatch methods name args = none) := by
  constructor
  · intro m hm
    simp [TrainingExtension.dispatch, hm]
  · intro hm
    simp [TrainingExtension.dispatch, hm]

/-- Witness for C3: on the base-class method table, dispatching the
`after_epoch` callback invokes the no-op method, while an unknown name fails
the lookup. -/
theorem training_extension_dispatch_invokes_named_method_witness :
    TrainingExtension.dispatch (base_callback_table Nat) "after_epoch" []
        = some ()
    ∧ TrainingExtension.dispatch (base_callback_table Nat) "not_a_callback" []
        = none := by
  constructor
  · exact (training_extension_dispatch_invokes_named_method
      (base_callback_table Nat) "after_epoch" []).1 (fun _ => ()) rfl
  · exact (training_extension_dispatch_invokes_named_method
      (base_callback_table Nat) "not_a_callback" []).2 rfl

/-- C4: invoking `SimpleExtension.dispatch` with a callback name that matches
no registered condition (including a name that is not a recognized lifecycle
callback) invokes `do` zero times, raises no error (the function is total),
and leaves both the extension's condition list and the log unchanged. -/
theorem dispatch_unknown_callback_noop {α : Type} (ext : SimpleExtension α)
    (dm : String → List α → Log → Log) (inv : String) (args : List α)
    (log : Log) (h : ∀ c ∈ ext.conditions, c.callback_name ≠ inv) :
    ext.dispatch dm inv args log = (ext, log, []) := by
  unfold SimpleExtension.dispatch
  rw [dispatchGo_unmatched dm inv args ext.conditions log h]

/-- Witness for C4: an extension registered for `before_epoch` and
`after_epoch` dispatched with the unrelated name `on_interrupt` is a silent
no-op. -/
theorem dispatch_unknown_callback_noop_witness :
    ext4.dispatch (fun _ _ l => l) "on_interrupt" [3] log4
      = (ext4, log4, []) := by
  have h : ∀ c ∈ ext4.conditions, c.callback_name ≠ "on_interrupt" := by
    have e : ext4.conditions
        = [⟨"before_epoch", fun log => log.status.epochs_done == 0, []⟩,
           ⟨"after_epoch", fun _ => true, []⟩] := rfl
    rw [e]
    intro c hc
    simp only [List.mem_cons, List.not_mem_nil, or_false] at hc
    rcases hc with rfl | rfl <;> decide
  exact dispatch_unknown_callback_noop ext4 (fun _ _ l => l) "on_interrupt"
    [3] log4 h

/-- C10: during `SimpleExtension.dispatch`, a condition's predicate is
evaluated only when the condition's stored callback name equals the invoked
name (`and` short-circuits); predicates of conditions registered for other
callbacks are never called, and each matching condition's predicate is called
exactly once, with the main loop's log as its sole argument.  Every predicate
call is recorded in the instrumented state as (condition index, argument);
the final state lists exactly the name-matching condition indices, in order,
each paired with the log. -/
theorem predicate_evaluated_only_on_name_match {α : Type}
    (conds : List (Condition α)) (dm : String → List α → Log → Log)
    (inv : String) (args : List α) (log : Log) (h : ∀ n a l, dm n a l = l) :
    (dispatchEGo dm inv args ((conds.enum).map fun p => instrument p.1 p.2)
        log []).2.1
      = ((conds.enum).filter fun p => p.2.callback_name == inv).map
          (fun p => (p.1, log)) := by
  have e : conds.enum = conds.enumFrom 0 := rfl
  rw [e]
  simpa using dispatchEGo_instrumented dm inv args h conds 0 log []

/-- C2 (evaluation at the failing input): `after_n_batches=0` (and likewise
`after_n_epochs=0`) registers no condition at all, because
`SimpleExtension.__init__` guards the registration with Python truthiness
(`if after_n_batches:`), which is false for `0` — contradicting the
constructor's own docstring ("If not ``None``, :meth:`do` is invoked when
`after_n_batches` batches are processed").  Hence `do` never fires for `N=0`,
not even at `iterations_done == 0`; with a nonzero count (`5`) the condition
is registered and `do` fires exactly at `iterations_done == 5`. -/
theorem after_n_batches_zero_registers_nothing :
    (SimpleExtension.init Nat false false false false none (some 0)).conditions
        = []
    ∧ (SimpleExtension.init Nat false false false false (some 0) none).conditions
        = []
    ∧ ((SimpleExtension.init Nat false false false false none
          (some 0)).dispatch (fun _ _ l => l) "after_batch" []
          ⟨⟨0, 0⟩, ⟨false⟩⟩).2.2 = []
    ∧ ((SimpleExtension.init Nat false false false false none
          (some 5)).dispatch (fun _ _ l => l) "after_batch" []
          ⟨⟨0, 5⟩, ⟨false⟩⟩).2.2 = [("after_batch", [])]
    ∧ ((SimpleExtension.init Nat false false false false none
          (some 5)).dispatch (fun _ _ l => l) "after_batch" []
          ⟨⟨0, 4⟩, ⟨false⟩⟩).2.2 = [] := by
  exact ⟨rfl, rfl, by decide, by decide, by decide⟩

/-- C5: `add_condition` with `predicate` omitted or `None` registers an
always-true predicate, and with `arguments` omitted or `None` an empty
extra-argument list; such a condition fires `do` on every dispatch of its
callback name, passing exactly the main-loop arguments. -/
theorem add_condition_default_predicate_and_arguments {α : Type}
    (ext : SimpleExtension α) (name : String)
    (dm : String → List α → Log → Log) (args : List α) (log : Log) :
    (ext.add_condition name none none).conditions
      = ext.conditions ++ [⟨name, fun _ => true, []⟩]
    ∧ (((SimpleExtension.mk []).add_condition name none none).dispatch dm name
        args log).2.2 = [(name, args)] := by
  refine ⟨rfl, ?_⟩
  have e : (SimpleExtension.mk [] : SimpleExtension α).add_condition name
      none none = SimpleExtension.mk [⟨name, fun _ => true, []⟩] := rfl
  rw [e, dispatch_single]
  simp

/-- The extension built by `SimpleExtension(before_first_epoch=True)`. -/
def bfe_ext (α : Type) : SimpleExtension α :=
  SimpleExtension.init α true false false false none none

/-- C6: `before_first_epoch=True` registers exactly one condition, on the
`before_epoch` callback with predicate `epochs_done == 0`; a `before_epoch`
dispatch therefore fires `do` exactly when `epochs_done == 0`, and over any
run of `before_epoch` dispatches the number of `do` invocations equals the
number of dispatches at which `epochs_done == 0` — in particular exactly one
when precisely one dispatch sees `epochs_done == 0`, and none afterwards. -/
theorem before_first_epoch_registration_and_firing {α : Type}
    (dm : String → List α → Log → Log) (args : List α) :
    (bfe_ext α).conditions
      = [⟨"before_epoch", fun log => log.status.epochs_done == 0, []⟩]
    ∧ (∀ log : Log, ((bfe_ext α).dispatch dm "before_epoch" args log).2.2
        = if log.status.epochs_done == 0 then [("before_epoch", args)] else [])
    ∧ (∀ logs : List Log,
        (logs.map fun l =>
          (((bfe_ext α).dispatch dm "before_epoch" args l).2.2).length).sum
        = logs.countP fun l => l.status.epochs_done == 0) := by
  have h2 : ∀ log : Log, ((bfe_ext α).dispatch dm "before_epoch" args log).2.2
      = if log.status.epochs_done == 0 then [("before_epoch", args)]
        else [] := by
    intro log
    have e : bfe_ext α = SimpleExtension.mk
        [⟨"before_epoch", fun log => log.status.epochs_done == 0, []⟩] := rfl
    rw [e, dispatch_single]
    cases hp : (log.status.epochs_done == 0) <;> simp [hp]
  refine ⟨rfl, h2, ?_⟩
  intro logs
  induction logs with
  | nil => rfl
  | cons l ls ih =>
    simp only [List.map_cons, List.sum_cons, List.countP_cons, h2 l, ih]
    cases hp : (l.status.epochs_done == 0) <;> simp [hp]
    omega

/-- The extension state built by `FinishAfter(after_training=True)` (whose
`__init__` forwards the kwargs to `SimpleExtension.__init__` unchanged). -/
def fa_ext (α : Type) : SimpleExtension α :=
  SimpleExtension.init α false false false true none none

/-- C7: `FinishAfter.do` does nothing but set the
`training_finish_requested` flag on the log's current row, whichever callback
and arguments triggered it; and a `FinishAfter` constructed with
`after_training=True` leaves the flag true on the log after
`dispatch("after_training")`. -/
theorem finish_after_sets_finish_requested {α : Type} (which : String)
    (args : List α) (log : Log) :
    finish_after_do which args log = ⟨log.status, ⟨true⟩⟩
    ∧ ((fa_ext α).dispatch finish_after_do "after_training" args log).2.1
        = ⟨log.status, ⟨true⟩⟩ := by
  constructor
  · rfl
  · have e : fa_ext α
        = SimpleExtension.mk [⟨"after_training", fun _ => true, []⟩] := rfl
    rw [e]
    simp [SimpleExtension.dispatch, dispatchGo, finish_after_do]

/-- C8: `Printing.__init__` sets each of `before_first_epoch`,
`after_training` and `after_every_epoch` to `True` exactly when the caller
did not pass it (the `getD` form: an explicitly passed value, even `False`,
is kept), leaves the other kwargs untouched, and a `Printing` constructed
with no kwargs registers exactly the conditions on `before_epoch` (predicate
`epochs_done == 0`), `after_epoch` and `after_training`. -/
theorem printing_default_flags (α : Type) (k : Kwargs) :
    (Printing.init_kwargs k).before_first_epoch
        = some (k.before_first_epoch.getD true)
    ∧ (Printing.init_kwargs k).after_training
        = some (k.after_training.getD true)
    ∧ (Printing.init_kwargs k).after_every_epoch
        = some (k.after_every_epoch.getD true)
    ∧ (Printing.init_kwargs k).after_every_batch = k.after_every_batch
    ∧ (Printing.init_kwargs k).after_n_epochs = k.after_n_epochs
    ∧ (Printing.init_kwargs k).after_n_batches = k.after_n_batches
    ∧ (Printing.init α Kwargs.empty).conditions
        = [⟨"before_epoch", fun log => log.status.epochs_done == 0, []⟩,
           ⟨"after_epoch", fun _ => true, []⟩,
           ⟨"after_training", fun _ => true, []⟩] := by
  refine ⟨?_, ?_, ?_, rfl, rfl, rfl, rfl⟩ <;>
    simp [Printing.init_kwargs, set_if_absent_eq]

/-- C9: the condition list is append-only: `add_condition` appends exactly
one condition triple, carrying the given callback name, after all previously
registered conditions, whose order it leaves unchanged; and `dispatch`
returns the extension with its condition list untouched (its loop only reads
`self._conditions`). -/
theorem conditions_append_only {α : Type} (ext : SimpleExtension α)
    (name : String) (p : Option (Log → Bool)) (a : Option (List α))
    (dm : String → List α → Log → Log) (inv : String) (args : List α)
    (log : Log) :
    (∃ c : Condition α, (ext.add_condition name p a).conditions
        = ext.conditions ++ [c] ∧ c.callback_name = name)
    ∧ (ext.dispatch dm inv args log).1 = ext := by
  exact ⟨⟨_, rfl, rfl⟩, rfl⟩

/-- Witness for C10: dispatching `after_epoch` over `conds10` calls exactly
the predicates of the two `after_epoch` conditions (indices 0 and 2), each
once, on the log — the `before_epoch` predicate at index 1 is never called,
even though it would evaluate to false anyway. -/
theorem predicate_evaluated_only_on_name_match_witness :
    (dispatchEGo (fun _ _ l => l) "after_epoch" ([] : List Nat)
        ((conds10.enum).map fun p => instrument p.1 p.2) log10 []).2.1
      = [(0, log10), (2, log10)] := by
  exact (predicate_evaluated_only_on_name_match conds10 (fun _ _ l => l)
    "after_epoch" [] log10 (fun _ _ _ => rfl)).trans (by decide)

end Blocks
